import Mathlib

/-
Verification of the contrastive-loss core of the MNIST classification
repository (notebook main_simclr.ipynb).

The embedding mirrors, over the real numbers:
  * `SupConLoss.forward` (mask selection, view-major flattening, similarity
    matrix, row-max shift, self-exclusion mask, log-softmax ratio, final mean)
    with the repository's `contrast_mode = 'all'`;
  * the mask pipeline (identity / label-equality base mask, block tiling by
    the view count, diagonal zeroing);
  * the batch assembly of `pretraining` combined with `SupCon.forward`
    (concatenate the two view batches, one whole-batch extractor call,
    row-wise L2 normalization, split at N and stack along a view axis);
  * the utility `calculate_accuracy`, modelled over the rationals since it
    performs only exact comparisons and counting.
Machine floats are modelled by real numbers (rationals for the accuracy
routine); tensors by functions out of `Fin`; the distinct `ValueError`s of
`forward` by an error enumeration returned through `Except`.
-/

/-- Error cases of `SupConLoss.forward`.
`needRank3` is the ValueError raised when `len(features.shape) < 3`;
`bothLabelsMask` the ValueError for supplying both `labels` and `mask`;
`labelCountMismatch` the ValueError for `labels.shape[0] != batch_size`;
`emptyBatch` models the RuntimeError that `torch.max(..., dim=1)` raises
when the flattened batch `n_views * batch_size` is empty. -/
inductive SupConError
  | needRank3
  | bothLabelsMask
  | labelCountMismatch
  | emptyBatch
deriving DecidableEq

/-- A real tensor as seen by `SupConLoss.forward`: a shape together with a
flat row-major accessor for its entries. -/
structure RTensor where
  shape : List ℕ
  entries : ℕ → ℝ

/-- Base mask of `SupConLoss.forward` (an (n, n) matrix):
`torch.eye(batch_size)` when no labels are given, and
`torch.eq(labels, labels.T)` when labels are given. -/
def baseMask (n : ℕ) (labels : Option (List ℤ)) : Fin n → Fin n → ℝ :=
  match labels with
  | none => fun i j => if i = j then 1 else 0
  | some ls => fun i j => if ls.getD i.val 0 = ls.getD j.val 0 then 1 else 0

/-- `mask.repeat(anchor_count, contrast_count)`: block-tile an (n, n) mask to
(V*n, V*n).  Row `v*n + i` of the flattened view tensor is view `v` of anchor
`i`, so the tiled entry at `(p, q)` is the base entry at `(p % n, q % n)`. -/
def tileMask (n V : ℕ) (B : Fin n → Fin n → ℝ) : Fin (V * n) → Fin (V * n) → ℝ :=
  fun p q =>
    B ⟨p.val % n, Nat.mod_lt _ (Nat.pos_of_ne_zero (fun h => absurd p.isLt (by simp [h])))⟩
      ⟨q.val % n, Nat.mod_lt _ (Nat.pos_of_ne_zero (fun h => absurd q.isLt (by simp [h])))⟩

/-- `logits_mask`: the all-ones (M, M) matrix with the diagonal zeroed
(`torch.scatter(torch.ones_like(mask), 1, arange(M).view(-1,1), 0)`). -/
def logitsMaskM (M : ℕ) : Fin M → Fin M → ℝ := fun p q => if p = q then 0 else 1

/-- The positive mask actually used by the loss: base mask (identity or
label-equality), tiled `V` times along both axes, diagonal zeroed
(`mask = mask.repeat(...) * logits_mask`). -/
def excludedMask (n V : ℕ) (labels : Option (List ℤ)) :
    Fin (V * n) → Fin (V * n) → ℝ :=
  fun p q => tileMask n V (baseMask n labels) p q * logitsMaskM (V * n) p q

/-- Row maximum of the scaled similarity matrix
(`torch.max(anchor_dot_contrast, dim=1, keepdim=True)`). -/
def rowMax {M : ℕ} [NeZero M] (S : Fin M → Fin M → ℝ) (p : Fin M) : ℝ :=
  Finset.univ.sup' ⟨⟨0, Nat.pos_of_ne_zero (NeZero.ne M)⟩, Finset.mem_univ _⟩ (S p)

/-- `logits = anchor_dot_contrast - logits_max.detach()`: subtract each row's
maximum for numerical stability. -/
def logitsOf {M : ℕ} [NeZero M] (S : Fin M → Fin M → ℝ) : Fin M → Fin M → ℝ :=
  fun p q => S p q - rowMax S p

/-- Row sum of `exp_logits = torch.exp(logits) * logits_mask`. -/
noncomputable def denomOf {M : ℕ} [NeZero M] (S : Fin M → Fin M → ℝ) (p : Fin M) : ℝ :=
  ∑ q, Real.exp (logitsOf S p q) * logitsMaskM M p q

/-- `log_prob = logits - torch.log(exp_logits.sum(1, keepdim=True))`. -/
noncomputable def logProbOf {M : ℕ} [NeZero M] (S : Fin M → Fin M → ℝ) (p q : Fin M) : ℝ :=
  logitsOf S p q - Real.log (denomOf S p)

/-- `mask = mask * logits_mask`: zero the diagonal of the (already tiled)
positive mask. -/
def maskedMask {M : ℕ} (mask : Fin M → Fin M → ℝ) : Fin M → Fin M → ℝ :=
  fun p q => mask p q * logitsMaskM M p q

/-- `mean_log_prob_pos = (mask * log_prob).sum(1) / mask.sum(1)`. -/
noncomputable def meanLogProbPos {M : ℕ} [NeZero M] (S mask : Fin M → Fin M → ℝ) (p : Fin M) : ℝ :=
  (∑ q, maskedMask mask p q * logProbOf S p q) / (∑ q, maskedMask mask p q)

/-- Steps 5-11 of `SupConLoss.forward` given the scaled similarity matrix `S`
(`anchor_dot_contrast`) and the tiled (not yet diagonal-zeroed) positive
mask: per-row loss `-(temperature / base_temperature) * mean_log_prob_pos`,
averaged over all `M = anchor_count * batch_size` rows. -/
noncomputable def lossCore {M : ℕ} [NeZero M] (S mask : Fin M → Fin M → ℝ) (t bt : ℝ) : ℝ :=
  (∑ p, -(t / bt) * meanLogProbPos S mask p) / (M : ℝ)

/-- `anchor_dot_contrast = torch.div(torch.matmul(feat, feat.T), temperature)`. -/
noncomputable def simOf {M D : ℕ} (feat : Fin M → Fin D → ℝ) (t : ℝ) : Fin M → Fin M → ℝ :=
  fun p q => (∑ d, feat p d * feat q d) / t

/-- `contrast_feature = torch.cat(torch.unbind(features, dim=1), dim=0)` read
off a flat row-major (n, V, D) accessor: flattened row `p` is view `p / n` of
anchor `p % n`, whose entry `d` sits at flat index
`(p % n) * (V * D) + (p / n) * D + d`. -/
def flatFeature (n V D : ℕ) (e : ℕ → ℝ) : Fin (V * n) → Fin D → ℝ :=
  fun p d => e ((p.val % n) * (V * D) + (p.val / n) * D + d.val)

/-- The non-error tail of `SupConLoss.forward`: flatten the views, build the
scaled similarity matrix, tile the base mask and run the loss core.  The
reduction `torch.max(..., dim=1)` raises on an empty flattened batch, which
is the `emptyBatch` error case. -/
noncomputable def lossOk (n V D : ℕ) (e : ℕ → ℝ) (B : Fin n → Fin n → ℝ) (t bt : ℝ) :
    Except SupConError ℝ :=
  if h : V * n ≠ 0 then
    .ok (@lossCore (V * n) ⟨h⟩ (simOf (flatFeature n V D e) t) (tileMask n V B) t bt)
  else .error .emptyBatch

/-- `SupConLoss.forward(features, labels, mask)` with the repository's
`contrast_mode = 'all'`: the rank guard, the mutual-exclusion and label-count
guards, mask selection, then the loss pipeline.  A rank above 3 is folded as
`features.view(shape[0], shape[1], -1)`, i.e. `D` is the product of the
trailing dimensions. -/
noncomputable def supConForward (features : RTensor) (labels : Option (List ℤ))
    (maskArg : Option (ℕ → ℕ → ℝ)) (t bt : ℝ) : Except SupConError ℝ :=
  if features.shape.length < 3 then .error .needRank3
  else
    let n := features.shape.headD 0
    let V := features.shape.getD 1 0
    let D := (features.shape.drop 2).prod
    match labels, maskArg with
    | some _, some _ => .error .bothLabelsMask
    | some ls, none =>
        if ls.length ≠ n then .error .labelCountMismatch
        else lossOk n V D features.entries (baseMask n (some ls)) t bt
    | none, none => lossOk n V D features.entries (baseMask n none) t bt
    | none, some m => lossOk n V D features.entries (fun i j => m i.val j.val) t bt

/-- A result of `supConForward` is a shape error when it is one of the two
`ValueError`s that the spec groups under ShapeMismatch. -/
def isShapeError (r : Except SupConError ℝ) : Prop :=
  r = .error .needRank3 ∨ r = .error .labelCountMismatch

/-- The partner row of row `p` in the flattened 2-view layout: the other view
of the same anchor, at offset `n`. -/
def partnerIdx (n : ℕ) (p : Fin (2 * n)) : Fin (2 * n) :=
  if h : p.val < n then ⟨p.val + n, by omega⟩
  else ⟨p.val - n, by have := p.isLt; omega⟩

/-- `data = torch.cat([data[0], data[1]], dim=0)`: concatenate the two view
batches along the batch axis. -/
def concatBatch {n : ℕ} {α : Type} (b0 b1 : Fin n → α) : Fin (n + n) → α :=
  fun j => if h : j.val < n then b0 ⟨j.val, h⟩
           else b1 ⟨j.val - n, by have := j.isLt; omega⟩

/-- Row-wise L2 normalization, `F.normalize(_, dim=1)`. -/
noncomputable def l2normalize {D : ℕ} (x : Fin D → ℝ) : Fin D → ℝ :=
  fun d => x d / Real.sqrt (∑ i, x i ^ 2)

/-- `SupCon.forward`: run the extractor (encoder + projection head) on the
whole batch, then L2-normalize every embedding.  The extractor is a
whole-batch black box, reflecting that layers such as BatchNorm make each
output row depend on the entire batch. -/
noncomputable def supConModel {m D : ℕ} {α : Type}
    (extract : (Fin m → α) → Fin m → Fin D → ℝ) (batch : Fin m → α) :
    Fin m → Fin D → ℝ :=
  fun j => l2normalize (extract batch j)

/-- The feature assembly of `pretraining`: concatenate the two view batches,
run the model once on the 2N-row concatenation, split the output at N
(`torch.split(features, [bsz, bsz])`) and stack the halves along a new view
axis (`torch.cat([f1.unsqueeze(1), f2.unsqueeze(1)], dim=1)`). -/
noncomputable def pretrainFeatures {n D : ℕ} {α : Type}
    (extract : (Fin (n + n) → α) → Fin (n + n) → Fin D → ℝ)
    (b0 b1 : Fin n → α) : Fin n → Fin 2 → Fin D → ℝ :=
  let data := concatBatch b0 b1
  let feats := supConModel extract data
  let f1 : Fin n → Fin D → ℝ := fun i => feats ⟨i.val, by have := i.isLt; omega⟩
  let f2 : Fin n → Fin D → ℝ := fun i => feats ⟨n + i.val, by have := i.isLt; omega⟩
  fun i v => if v = 0 then f1 i else f2 i

/-- `output.data.max(dim=1, keepdim=True)[1]`: index of the first maximal
entry of a row. -/
def argmaxRow {C : ℕ} [NeZero C] (row : Fin C → ℚ) : Fin C :=
  (List.finRange C).foldl (fun best j => if row best < row j then j else best)
    ⟨0, Nat.pos_of_ne_zero (NeZero.ne C)⟩

/-- `calculate_accuracy(output, target)`: take the argmax class index per row,
compare it against the constant `1.0`, compare the targets against the
constant `1.0`, and return the fraction of rows on which the two Boolean
vectors agree. -/
def calculate_accuracy {B C : ℕ} [NeZero C]
    (output : Fin B → Fin C → ℚ) (target : Fin B → ℚ) : ℚ :=
  ((Finset.univ.filter
      (fun b => ((argmaxRow (output b)).val == 1) = (target b == 1))).card : ℚ) /
    (B : ℚ)

/-- Genuine top-1 accuracy: the fraction of rows whose argmax class index
equals the target class. -/
def top1Accuracy {B C : ℕ} [NeZero C]
    (output : Fin B → Fin C → ℚ) (target : Fin B → ℚ) : ℚ :=
  ((Finset.univ.filter
      (fun b => ((argmaxRow (output b)).val : ℚ) = target b)).card : ℚ) / (B : ℚ)

-- ------------------------------------------------------------------
-- Helper lemmas
-- ------------------------------------------------------------------

theorem mod_eq_mod_iff_two (n a b : ℕ) (hn : 0 < n) (ha : a < 2 * n) (hb : b < 2 * n) :
    a % n = b % n ↔ (a = b ∨ a = b + n ∨ b = a + n) := by
  have hca : a % n = if a < n then a else a - n := by
    split
    · exact Nat.mod_eq_of_lt (by omega)
    · rw [Nat.mod_eq_sub_mod (by omega)]
      exact Nat.mod_eq_of_lt (by omega)
  have hcb : b % n = if b < n then b else b - n := by
    split
    · exact Nat.mod_eq_of_lt (by omega)
    · rw [Nat.mod_eq_sub_mod (by omega)]
      exact Nat.mod_eq_of_lt (by omega)
  rw [hca, hcb]
  constructor
  · intro h
    by_cases h1 : a < n <;> by_cases h2 : b < n <;> simp [h1, h2] at h <;> omega
  · intro h
    by_cases h1 : a < n <;> by_cases h2 : b < n <;> simp [h1, h2] <;> omega

theorem partner_mod (n : ℕ) (hn : 0 < n) (p : Fin (2 * n)) :
    (partnerIdx n p).val % n = p.val % n := by
  unfold partnerIdx
  split
  · simp [Nat.add_mod_right]
  · have hp := p.isLt
    rename_i h
    simp only
    rw [Nat.mod_eq_of_lt (by omega), Nat.mod_eq_sub_mod (by omega),
      Nat.mod_eq_of_lt (by omega)]

theorem partner_ne (n : ℕ) (hn : 0 < n) (p : Fin (2 * n)) : partnerIdx n p ≠ p := by
  unfold partnerIdx
  split <;> (intro h; have := congrArg Fin.val h; simp only [Fin.val_mk] at this) <;>
    rename_i hlt <;> omega

theorem excludedMask_none_eq (n : ℕ) [NeZero n] (p q : Fin (2 * n)) :
    excludedMask n 2 none p q = if q = partnerIdx n p then 1 else 0 := by
  have hn : 0 < n := Nat.pos_of_ne_zero (NeZero.ne n)
  have hp := p.isLt
  have hq2 := q.isLt
  simp only [excludedMask, tileMask, baseMask, logitsMaskM, Fin.mk.injEq]
  rcases eq_or_ne p q with rfl | hpq
  · rw [if_neg (fun hh : p = partnerIdx n p => partner_ne n hn p hh.symm)]
    simp
  · rw [if_neg hpq]
    by_cases hm : p.val % n = q.val % n
    · have hqp : q = partnerIdx n p := by
        rcases (mod_eq_mod_iff_two n p.val q.val hn hp hq2).mp hm with h | h | h
        · exact absurd (Fin.ext h) hpq
        · unfold partnerIdx
          rw [dif_neg (by omega)]
          refine Fin.ext ?_
          show q.val = p.val - n
          omega
        · unfold partnerIdx
          rw [dif_pos (by omega)]
          refine Fin.ext ?_
          show q.val = p.val + n
          omega
      rw [if_pos hm, if_pos hqp]
      norm_num
    · have hqp : q ≠ partnerIdx n p := by
        intro hh
        exact hm (by rw [hh]; exact (partner_mod n hn p).symm)
      rw [if_neg hm, if_neg hqp]
      norm_num

/-- C1: with no labels and two views, the mask built by the loss engine
(identity base mask, tiled twice along both axes, diagonal zeroed) has every
row summing to exactly 1, and rows `i` and `i + n` mark each other as their
sole positive. -/
theorem mask_identity_sole_positive (n : ℕ) [NeZero n] :
    (∀ p : Fin (2 * n), ∑ q, excludedMask n 2 none p q = 1) ∧
    (∀ i : Fin n,
      excludedMask n 2 none ⟨i.val, by have := i.isLt; omega⟩
        ⟨i.val + n, by have := i.isLt; omega⟩ = 1 ∧
      excludedMask n 2 none ⟨i.val + n, by have := i.isLt; omega⟩
        ⟨i.val, by have := i.isLt; omega⟩ = 1) := by
  have hn : 0 < n := Nat.pos_of_ne_zero (NeZero.ne n)
  constructor
  · intro p
    calc ∑ q, excludedMask n 2 none p q
        = ∑ q, if q = partnerIdx n p then (1 : ℝ) else 0 :=
          Finset.sum_congr rfl (fun q _ => excludedMask_none_eq n p q)
      _ = 1 := by
          rw [Finset.sum_ite_eq' Finset.univ (partnerIdx n p) (fun _ => (1 : ℝ))]
          simp
  · intro i
    have h1 : partnerIdx n ⟨i.val, by have := i.isLt; omega⟩ =
        ⟨i.val + n, by have := i.isLt; omega⟩ := by
      unfold partnerIdx
      rw [dif_pos (show i.val < n from i.isLt)]
    have h2 : partnerIdx n ⟨i.val + n, by have := i.isLt; omega⟩ =
        ⟨i.val, by have := i.isLt; omega⟩ := by
      unfold partnerIdx
      rw [dif_neg (show ¬ i.val + n < n by omega)]
      refine Fin.ext ?_
      show i.val + n - n = i.val
      omega
    exact ⟨by rw [excludedMask_none_eq, h1, if_pos rfl],
      by rw [excludedMask_none_eq, h2, if_pos rfl]⟩

/-- Witness for C1 at n = 1: the unique off-diagonal pairing of the two views. -/
theorem mask_identity_sole_positive_w :
    ∑ q, excludedMask 1 2 none ⟨0, by norm_num⟩ q = 1 :=
  (mask_identity_sole_positive 1).1 ⟨0, by norm_num⟩

theorem excludedMask_nonneg (n V : ℕ) (labels : Option (List ℤ))
    (p q : Fin (V * n)) : 0 ≤ excludedMask n V labels p q := by
  rcases labels with _ | ls <;>
    simp only [excludedMask, tileMask, baseMask, logitsMaskM] <;>
    apply mul_nonneg <;> split <;> norm_num

theorem excludedMask_some_partner (n : ℕ) [NeZero n] (ls : List ℤ)
    (p : Fin (2 * n)) : excludedMask n 2 (some ls) p (partnerIdx n p) = 1 := by
  have hn : 0 < n := Nat.pos_of_ne_zero (NeZero.ne n)
  simp only [excludedMask, tileMask, baseMask, logitsMaskM]
  rw [if_pos (show ls.getD (p.val % n) 0 = ls.getD ((partnerIdx n p).val % n) 0
        by rw [partner_mod n hn p]),
    if_neg (fun hh : p = partnerIdx n p => partner_ne n hn p hh.symm)]
  norm_num

/-- C4: with two views and any label list, the mask built by the loss engine
(label-equality base mask, tiled, diagonal zeroed) is symmetric, and every
row sums to at least 1. -/
theorem mask_label_symm_rowsum (n : ℕ) [NeZero n] (ls : List ℤ)
    (h : ls.length = n) :
    (∀ p q : Fin (2 * n),
      excludedMask n 2 (some ls) p q = excludedMask n 2 (some ls) q p) ∧
    (∀ p : Fin (2 * n), 1 ≤ ∑ q, excludedMask n 2 (some ls) p q) := by
  constructor
  · intro p q
    simp only [excludedMask, tileMask, baseMask, logitsMaskM]
    rcases eq_or_ne p q with rfl | h2
    · rfl
    · by_cases h1 : ls.getD (p.val % n) 0 = ls.getD (q.val % n) 0
      · rw [if_pos h1, if_pos h1.symm, if_neg h2, if_neg (Ne.symm h2)]
      · rw [if_neg h1,
          if_neg (fun hh : ls.getD (q.val % n) 0 = ls.getD (p.val % n) 0 =>
            h1 hh.symm)]
        ring
  · intro p
    calc (1 : ℝ) = excludedMask n 2 (some ls) p (partnerIdx n p) :=
          (excludedMask_some_partner n ls p).symm
      _ ≤ ∑ q, excludedMask n 2 (some ls) p q :=
          Finset.single_le_sum
            (fun q _ => excludedMask_nonneg n 2 (some ls) p q)
            (Finset.mem_univ _)

/-- Witness for C4 at n = 2, labels [3, 3]. -/
theorem mask_label_symm_rowsum_w :
    (∀ p q : Fin (2 * 2),
      excludedMask 2 2 (some [3, 3]) p q = excludedMask 2 2 (some [3, 3]) q p) ∧
    (∀ p : Fin (2 * 2), 1 ≤ ∑ q, excludedMask 2 2 (some [3, 3]) p q) :=
  mask_label_symm_rowsum 2 [3, 3] rfl

theorem rowMax_shift {M : ℕ} [NeZero M] (S : Fin M → Fin M → ℝ) (c : ℝ)
    (p : Fin M) : rowMax (fun p q => S p q + c) p = rowMax S p + c := by
  unfold rowMax
  apply le_antisymm
  · apply Finset.sup'_le
    intro q _
    have h := Finset.le_sup' (S p) (Finset.mem_univ q)
    change S p q + c ≤ _
    linarith
  · have h2 : Finset.univ.sup'
        ⟨⟨0, Nat.pos_of_ne_zero (NeZero.ne M)⟩, Finset.mem_univ _⟩ (S p) ≤
        Finset.univ.sup'
          ⟨⟨0, Nat.pos_of_ne_zero (NeZero.ne M)⟩, Finset.mem_univ _⟩
          (fun q => S p q + c) - c := by
      apply Finset.sup'_le
      intro q _
      have h := Finset.le_sup' (fun q => S p q + c) (Finset.mem_univ q)
      simp only at h
      linarith
    linarith

theorem logitsOf_shift {M : ℕ} [NeZero M] (S : Fin M → Fin M → ℝ) (c : ℝ) :
    logitsOf (fun p q => S p q + c) = logitsOf S := by
  funext p q
  unfold logitsOf
  rw [rowMax_shift]
  ring

/-- C2: the loss computed by the engine is unchanged when a constant is added
to every entry of the scaled similarity matrix before the row-max
subtraction — the numerical-stability shift cancels exactly. -/
theorem lossCore_shift_invariant {M : ℕ} [NeZero M]
    (S mask : Fin M → Fin M → ℝ) (t bt c : ℝ) :
    lossCore (fun p q => S p q + c) mask t bt = lossCore S mask t bt := by
  unfold lossCore meanLogProbPos logProbOf denomOf
  rw [logitsOf_shift]

/-- Witness for C2 at M = 2, S = 0, c = 1, all-ones mask. -/
theorem lossCore_shift_invariant_w :
    lossCore (fun p q : Fin 2 => (fun _ _ : Fin 2 => (0 : ℝ)) p q + 1)
        (fun _ _ : Fin 2 => (1 : ℝ)) 1 1 =
      lossCore (fun _ _ : Fin 2 => (0 : ℝ)) (fun _ _ : Fin 2 => (1 : ℝ)) 1 1 :=
  lossCore_shift_invariant (fun _ _ => 0) (fun _ _ => 1) 1 1 1

theorem logitsMaskM_nonneg (M : ℕ) (p q : Fin M) : 0 ≤ logitsMaskM M p q := by
  unfold logitsMaskM
  split <;> norm_num

theorem denomOf_pos {M : ℕ} [NeZero M] (S : Fin M → Fin M → ℝ) (p : Fin M)
    (hq : ∃ q, q ≠ p) : 0 < denomOf S p := by
  obtain ⟨q0, hq0⟩ := hq
  unfold denomOf
  apply Finset.sum_pos'
  · intro q _
    exact mul_nonneg (Real.exp_pos _).le (logitsMaskM_nonneg M p q)
  · refine ⟨q0, Finset.mem_univ _, ?_⟩
    unfold logitsMaskM
    rw [if_neg (fun h => hq0 h.symm)]
    simpa using Real.exp_pos _

theorem logProbOf_nonpos {M : ℕ} [NeZero M] (S : Fin M → Fin M → ℝ)
    (p q : Fin M) (hpq : q ≠ p) : logProbOf S p q ≤ 0 := by
  have hd : 0 < denomOf S p := denomOf_pos S p ⟨q, hpq⟩
  have hle : Real.exp (logitsOf S p q) ≤ denomOf S p := by
    have h := Finset.single_le_sum
      (f := fun q' => Real.exp (logitsOf S p q') * logitsMaskM M p q')
      (fun q' _ => mul_nonneg (Real.exp_pos _).le (logitsMaskM_nonneg M p q'))
      (Finset.mem_univ q)
    unfold denomOf
    calc Real.exp (logitsOf S p q)
        = Real.exp (logitsOf S p q) * logitsMaskM M p q := by
          unfold logitsMaskM
          rw [if_neg (fun h => hpq h.symm)]
          ring
      _ ≤ _ := h
  unfold logProbOf
  have := (Real.le_log_iff_exp_le hd).mpr hle
  linarith

/-- C5: for a binary positive mask in which every row retains a positive
after self-exclusion, and positive temperatures, the loss returned by the
engine is nonnegative. -/
theorem lossCore_nonneg {M : ℕ} [NeZero M] (S mask : Fin M → Fin M → ℝ)
    (t bt : ℝ) (ht : 0 < t) (hbt : 0 < bt)
    (hbin : ∀ p q, mask p q = 0 ∨ mask p q = 1)
    (hpos : ∀ p, ∃ q, q ≠ p ∧ mask p q = 1) :
    0 ≤ lossCore S mask t bt := by
  unfold lossCore
  apply div_nonneg _ (Nat.cast_nonneg M)
  apply Finset.sum_nonneg
  intro p _
  rw [neg_mul_comm]
  apply mul_nonneg (div_nonneg ht.le hbt.le)
  rw [neg_nonneg]
  unfold meanLogProbPos
  have hmm : ∀ q, 0 ≤ maskedMask mask p q := by
    intro q
    unfold maskedMask
    apply mul_nonneg _ (logitsMaskM_nonneg M p q)
    rcases hbin p q with h | h <;> rw [h] <;> norm_num
  rw [div_nonpos_iff]
  right
  constructor
  · apply Finset.sum_nonpos
    intro q _
    rcases eq_or_ne q p with rfl | hqp
    · have : maskedMask mask q q = 0 := by
        unfold maskedMask logitsMaskM
        rw [if_pos rfl]
        ring
      rw [this]
      ring_nf
      exact le_refl 0
    · exact mul_nonpos_of_nonneg_of_nonpos (hmm q) (logProbOf_nonpos S p q hqp)
  · exact Finset.sum_nonneg (fun q _ => hmm q)

/-- Witness for C5 at M = 2 with the all-off-diagonal mask. -/
theorem lossCore_nonneg_w :
    0 ≤ lossCore (fun _ _ : Fin 2 => (0 : ℝ))
        (fun p q : Fin 2 => if p = q then 0 else 1) 1 1 :=
  lossCore_nonneg (fun _ _ => 0) (fun p q => if p = q then 0 else 1) 1 1
    one_pos one_pos
    (fun p q => by dsimp only; split
                   · exact Or.inl rfl
                   · exact Or.inr rfl)
    (fun p => ⟨p + 1, (by decide : ∀ r : Fin 2, r + 1 ≠ r) p, by
      show (if p = p + 1 then (0 : ℝ) else 1) = 1
      rw [if_neg ((by decide : ∀ r : Fin 2, ¬ r = r + 1) p)]⟩)

/-- C7: the batch assembly of `pretraining` concatenates the two view batches
as one 2N-row batch, applies the model (extractor plus row-wise L2
normalization) to that single concatenation, and regroups so that
`result[i, 0]` and `result[i, 1]` are the normalized embeddings at rows `i`
and `i + n` of the flat output of that one extractor call. -/
theorem pretrain_features_postcondition {n D : ℕ} {α : Type}
    (extract : (Fin (n + n) → α) → Fin (n + n) → Fin D → ℝ)
    (b0 b1 : Fin n → α) (i : Fin n) :
    pretrainFeatures extract b0 b1 i 0 =
      l2normalize (extract (concatBatch b0 b1)
        ⟨i.val, by have := i.isLt; omega⟩) ∧
    pretrainFeatures extract b0 b1 i 1 =
      l2normalize (extract (concatBatch b0 b1)
        ⟨i.val + n, by have := i.isLt; omega⟩) := by
  constructor
  · rfl
  · have hidx : (⟨n + i.val, by have := i.isLt; omega⟩ : Fin (n + n)) =
        ⟨i.val + n, by have := i.isLt; omega⟩ := Fin.ext (Nat.add_comm n i.val)
    show supConModel extract (concatBatch b0 b1)
      ⟨n + i.val, by have := i.isLt; omega⟩ = _
    rw [hidx]
    rfl

/-- C9: `calculate_accuracy` compares the argmax class index against the
constant 1; on a 3-class single-sample batch whose argmax is class 0 but
whose target is class 2 it reports accuracy 1 while genuine top-1 accuracy
is 0. -/
theorem calculate_accuracy_not_top1 :
    calculate_accuracy (fun _ : Fin 1 => (![5, 0, 0] : Fin 3 → ℚ))
        (fun _ : Fin 1 => (2 : ℚ)) ≠
      top1Accuracy (fun _ : Fin 1 => (![5, 0, 0] : Fin 3 → ℚ))
        (fun _ : Fin 1 => (2 : ℚ)) := by
  have hA : calculate_accuracy (fun _ : Fin 1 => (![5, 0, 0] : Fin 3 → ℚ))
      (fun _ : Fin 1 => (2 : ℚ)) = 1 := by
    unfold calculate_accuracy
    rw [Finset.univ_unique, Finset.filter_singleton, if_pos (by decide)]
    norm_num
  have hB : top1Accuracy (fun _ : Fin 1 => (![5, 0, 0] : Fin 3 → ℚ))
      (fun _ : Fin 1 => (2 : ℚ)) = 0 := by
    unfold top1Accuracy
    rw [Finset.univ_unique, Finset.filter_singleton, if_neg (by decide)]
    norm_num
  rw [hA, hB]
  exact one_ne_zero

theorem baseMask_distinct_eq : baseMask 2 (some [0, 1]) = baseMask 2 none := by
  funext i j
  fin_cases i <;> fin_cases j <;> simp [baseMask]

/-- C6: for a batch of two anchors with two views, calling the loss with the
pairwise-distinct labels [0, 1] returns exactly the same value as calling it
with no labels — the label-equality base mask coincides with the identity
base mask. -/
theorem forward_labels01_eq_unsupervised (d : ℕ) (e : ℕ → ℝ) (t bt : ℝ) :
    supConForward ⟨[2, 2, d], e⟩ (some [0, 1]) none t bt =
      supConForward ⟨[2, 2, d], e⟩ none none t bt := by
  show lossOk 2 2 _ e (baseMask 2 (some [0, 1])) t bt =
    lossOk 2 2 _ e (baseMask 2 none) t bt
  rw [baseMask_distinct_eq]

theorem lossOk_not_shape (n V D : ℕ) (e : ℕ → ℝ) (B : Fin n → Fin n → ℝ)
    (t bt : ℝ) : ¬ isShapeError (lossOk n V D e B t bt) := by
  unfold lossOk isShapeError
  split <;> simp

theorem supConForward_none_none (features : RTensor) (t bt : ℝ)
    (h3 : ¬ features.shape.length < 3) :
    supConForward features none none t bt =
      lossOk (features.shape.headD 0) (features.shape.getD 1 0)
        ((features.shape.drop 2).prod) features.entries
        (baseMask (features.shape.headD 0) none) t bt := by
  unfold supConForward
  rw [if_neg h3]

theorem supConForward_none_some (features : RTensor) (m : ℕ → ℕ → ℝ)
    (t bt : ℝ) (h3 : ¬ features.shape.length < 3) :
    supConForward features none (some m) t bt =
      lossOk (features.shape.headD 0) (features.shape.getD 1 0)
        ((features.shape.drop 2).prod) features.entries
        (fun i j => m i.val j.val) t bt := by
  unfold supConForward
  rw [if_neg h3]

theorem supConForward_some_none (features : RTensor) (ls : List ℤ)
    (t bt : ℝ) (h3 : ¬ features.shape.length < 3) :
    supConForward features (some ls) none t bt =
      if ls.length ≠ features.shape.headD 0 then
        Except.error SupConError.labelCountMismatch
      else
        lossOk (features.shape.headD 0) (features.shape.getD 1 0)
          ((features.shape.drop 2).prod) features.entries
          (baseMask (features.shape.headD 0) (some ls)) t bt := by
  unfold supConForward
  rw [if_neg h3]

/-- C8: with the two mask-selection modes used exclusively, `forward` fails
with one of the two ShapeMismatch ValueErrors exactly when the features
tensor has fewer than 3 dimensions or the supplied label list's length
differs from the batch size (the leading dimension). -/
theorem forward_shape_error_iff (features : RTensor)
    (labels : Option (List ℤ)) (maskArg : Option (ℕ → ℕ → ℝ)) (t bt : ℝ)
    (hmode : labels = none ∨ maskArg = none) :
    isShapeError (supConForward features labels maskArg t bt) ↔
      (features.shape.length < 3 ∨
        ∃ ls, labels = some ls ∧ ls.length ≠ features.shape.headD 0) := by
  by_cases h3 : features.shape.length < 3
  · have hfwd : supConForward features labels maskArg t bt =
        Except.error SupConError.needRank3 := by
      unfold supConForward
      rw [if_pos h3]
    rw [hfwd]
    simp [isShapeError, h3]
  · rcases labels with _ | ls
    · rcases maskArg with _ | m
      · rw [supConForward_none_none features t bt h3]
        simp only [lossOk_not_shape, false_iff]
        push_neg
        exact ⟨not_lt.mp h3, fun ls h => by simp at h⟩
      · rw [supConForward_none_some features m t bt h3]
        simp only [lossOk_not_shape, false_iff]
        push_neg
        exact ⟨not_lt.mp h3, fun ls h => by simp at h⟩
    · rcases maskArg with _ | m
      · rw [supConForward_some_none features ls t bt h3]
        by_cases hlen : ls.length ≠ features.shape.headD 0
        · rw [if_pos hlen]
          constructor
          · intro _
            exact Or.inr ⟨ls, rfl, hlen⟩
          · intro _
            exact Or.inr rfl
        · rw [if_neg hlen]
          simp only [lossOk_not_shape, false_iff]
          push_neg
          refine ⟨not_lt.mp h3, fun ls2 h => ?_⟩
          obtain rfl : ls2 = ls := by injection h.symm
          exact not_not.mp hlen
      · rcases hmode with h | h <;> simp at h

/-- Witness for C8: rank-2 features with a one-label list, mask absent. -/
theorem forward_shape_error_iff_w :
    isShapeError (supConForward ⟨[2, 2], fun _ => 0⟩ (some [0]) none 1 1) ↔
      ((([2, 2] : List ℕ).length < 3) ∨
        ∃ ls, (some [0] : Option (List ℤ)) = some ls ∧
          ls.length ≠ (([2, 2] : List ℕ).headD 0)) :=
  forward_shape_error_iff ⟨[2, 2], fun _ => 0⟩ (some [0]) none 1 1 (Or.inr rfl)

/-- C10 counterexample: on rank-2 features with both labels and mask
supplied, `forward` raises the rank ValueError, not the
`Cannot define both labels and mask` one — the rank guard runs first. -/
theorem both_args_rank2_shape_error :
    supConForward ⟨[2, 2], fun _ => 0⟩ (some [0, 1]) (some fun _ _ => 1) 1 1 ≠
      Except.error SupConError.bothLabelsMask := by
  have h : supConForward ⟨[2, 2], fun _ => 0⟩ (some [0, 1])
      (some fun _ _ => 1) 1 1 = Except.error SupConError.needRank3 := by
    unfold supConForward
    rw [if_pos (by decide)]
  rw [h]
  simp

/-- C10 amended: for every features tensor of rank at least 3, supplying
both labels and an explicit mask makes `forward` raise the
`Cannot define both labels and mask` error, and no loss value is produced. -/
theorem forward_both_args_error (features : RTensor) (ls : List ℤ)
    (m : ℕ → ℕ → ℝ) (t bt : ℝ) (h3 : 3 ≤ features.shape.length) :
    supConForward features (some ls) (some m) t bt =
      Except.error SupConError.bothLabelsMask := by
  unfold supConForward
  rw [if_neg (by omega)]

/-- Witness for the amended C10 at shape (1, 2, 3). -/
theorem forward_both_args_error_w :
    supConForward ⟨[1, 2, 3], fun _ => 0⟩ (some []) (some fun _ _ => 0) 1 1 =
      Except.error SupConError.bothLabelsMask :=
  forward_both_args_error ⟨[1, 2, 3], fun _ => 0⟩ [] (fun _ _ => 0) 1 1
    (by decide)

/-- C3: on a degenerate input whose positive mask rows all sum to zero after
self-exclusion (explicit all-zero mask, batch size 1, two views), `forward`
raises no error at all: it silently returns a loss value (0/0 is NaN in
float arithmetic and 0 in this real-valued model).  The claimed fatal
DegenerateMask precondition error does not exist in the code. -/
theorem forward_degenerate_mask_ok :
    supConForward ⟨[1, 2, 1], fun _ => 0⟩ none (some fun _ _ => 0) 1 1 =
      Except.ok 0 := by
  rw [supConForward_none_some ⟨[1, 2, 1], fun _ => 0⟩ (fun _ _ => 0) 1 1
    (by decide)]
  unfold lossOk
  rw [dif_pos (by decide : ((([1, 2, 1] : List ℕ).getD 1 0) *
    (([1, 2, 1] : List ℕ).headD 0) : ℕ) ≠ 0)]
  congr 1
  unfold lossCore meanLogProbPos maskedMask tileMask
  norm_num
